import Mathlib

set_option maxRecDepth 40000

/-!
Verification of the `privacyserver` Paillier core and its encrypted balance
ledger (`src/paillier.rs`, `src/main.rs`).

The Rust code is embedded shallowly over `ℕ` (arbitrary-precision unsigned
integers, matching `num_bigint::BigUint`).  External library calls are
modelled from their documented contracts:

* `BigUint::modpow(e, m)` is `a ^ e % m` (`modpow`);
* `BigUint` subtraction panics on underflow; the panic is modelled as
  `none` (`checkedSub`);
* `BigUint::modinv(m)` returns the unique inverse in `[0, m)` when it
  exists and `None` otherwise (`modinv`, realised by an ascending search);
* `num_prime::nt_funcs::is_prime` with the default configuration is
  treated as an exact primality test, its error probability being
  cryptographically negligible (`isPrimeB`);
* `thread_rng` is modelled by an explicit stream `s : ℕ → ℕ` of draws
  (`gen_biguint bits` reads a draw and reduces it mod `2 ^ bits`), and each
  random value consumed by `encrypt` / `last_balance` is passed explicitly
  as an `r` argument;
* `BigUint::parse_bytes(s, 10)` follows num-bigint's `from_str_radix`: a
  single leading `'+'` is stripped, embedded `'_'` separators are skipped
  (but may not lead), and every remaining character must be a decimal
  digit (`plusStripped`, `parseDec`).

`PaillierKey::new`'s `.expect` panic on a non-invertible `lambda` is
modelled as `none`.
-/

/-- Model of `BigUint::modpow`: modular exponentiation. -/
def modpow (a e m : ℕ) : ℕ := a ^ e % m

/-- Model of `BigUint` subtraction, which panics on underflow: `none` is the panic. -/
def checkedSub (a b : ℕ) : Option ℕ := if b ≤ a then some (a - b) else none

/-- Ascending search for a modular inverse of `a` below the fuel bound,
realising the value `BigUint::modinv` returns. -/
def invSearchAux (a m : ℕ) : ℕ → ℕ → Option ℕ
  | _, 0 => none
  | b, fuel + 1 => if a * b % m = 1 % m then some b else invSearchAux a m (b + 1) fuel

/-- Model of `BigUint::modinv`: the least inverse in `[0, m)` when
`gcd a m = 1`, `none` otherwise. -/
def modinv (a m : ℕ) : Option ℕ :=
  if Nat.gcd a m = 1 then invSearchAux a m 0 m else none

/-- Executable primality test standing for `num_prime`'s `is_prime`
(trial division; extensionally `Nat.Prime`, see `isPrimeB_prime`). -/
def isPrimeB (k : ℕ) : Bool :=
  decide (2 ≤ k) && (List.range (k - 2)).all (fun d => k % (d + 2) != 0)

/-- A Paillier keypair (struct `PaillierKey` in `paillier.rs`). -/
structure PaillierKey where
  n : ℕ
  n_squared : ℕ
  g : ℕ
  lambda : ℕ
  mu : ℕ
deriving DecidableEq

/-- `PaillierKey::new` after the two primes have been drawn: computes
`n`, `n²`, `g = n + 1`, `lambda = (p-1)(q-1)` and `mu = lambda⁻¹ mod n`;
the `.expect("λ must be invertible mod n")` panic is `none`. -/
def PaillierKey.new (p q : ℕ) : Option PaillierKey :=
  match modinv ((p - 1) * (q - 1)) (p * q) with
  | none => none
  | some mu => some ⟨p * q, p * q * (p * q), p * q + 1, (p - 1) * (q - 1), mu⟩

/-- One candidate of `gen_prime`'s loop body: a random value below
`2 ^ bits` with the top bit and the low bit forced set. -/
def mkCandidate (bits x : ℕ) : ℕ := x % 2 ^ bits ||| 2 ^ (bits - 1) ||| 1

/-- `gen_prime` from `paillier.rs`: repeatedly sample a candidate and
primality-test it.  The unbounded `loop` is observed through `fuel`
iterations over the random stream `s` starting at index `i`; a success
returns the prime and the next unconsumed stream index. -/
def gen_prime : ℕ → ℕ → (ℕ → ℕ) → ℕ → Option (ℕ × ℕ)
  | 0, _, _, _ => none
  | fuel + 1, bits, s, i =>
    let cand := mkCandidate bits (s i)
    if isPrimeB cand then some (cand, i + 1) else gen_prime fuel bits s (i + 1)

/-- `PaillierKey::new(bits)` including its two `gen_prime(bits/2)` calls,
drawing from the single `thread_rng` stream `s`. -/
def keygen (bits fuel : ℕ) (s : ℕ → ℕ) : Option PaillierKey :=
  match gen_prime fuel (bits / 2) s 0 with
  | none => none
  | some (p, i) =>
    match gen_prime fuel (bits / 2) s i with
    | none => none
    | some (q, _) => PaillierKey.new p q

/-- A Paillier ciphertext (struct `PaillierCiphertext` in `paillier.rs`). -/
structure PaillierCiphertext where
  c : ℕ
  n_squared : ℕ
deriving DecidableEq

/-- `encrypt` from `paillier.rs`; the blinding factor `r` (drawn by the
source from `[0, n)` via `gen_biguint_below(&key.n)`) is explicit. -/
def encrypt (key : PaillierKey) (m r : ℕ) : PaillierCiphertext :=
  ⟨modpow key.g m key.n_squared * modpow r key.n key.n_squared % key.n_squared,
   key.n_squared⟩

/-- `decrypt` from `paillier.rs`: `m = L(c^λ mod n²)·μ mod n` with
`L(u) = (u - 1) / n`; the `&x - BigUint::one()` underflow panic at
`x = 0` is `none`. -/
def decrypt (key : PaillierKey) (ct : PaillierCiphertext) : Option ℕ :=
  (checkedSub (modpow ct.c key.lambda key.n_squared) 1).map
    (fun d => d / key.n * key.mu % key.n)

/-- `homomorphic_addition` from `paillier.rs`. -/
def homomorphic_addition (c1 c2 : PaillierCiphertext) (n_squared : ℕ) :
    PaillierCiphertext :=
  ⟨c1.c * c2.c % n_squared, n_squared⟩

/-- A ledger entry (struct `Record` in `main.rs`). -/
structure Record where
  wallet : String
  ct : PaillierCiphertext
deriving DecidableEq

/-- The two HTTP outcomes the `credit`/`debit` handlers produce. -/
inductive HttpResp where
  | ok (wallet : String) (c : ℕ)
  | badRequest
deriving DecidableEq

/-- `last_balance` from `main.rs`: the ciphertext of the most recent record
for `wallet`, or a fresh encryption of zero (blinding draw `r`) if none. -/
def last_balance (key : PaillierKey) (ledger : List Record) (wallet : String)
    (r : ℕ) : PaillierCiphertext :=
  match ledger.reverse.find? (fun entry => entry.wallet == wallet) with
  | some entry => entry.ct
  | none => encrypt key 0 r

/-- The shared tail of the `credit`/`debit` handlers once an amount `m` is
in hand: encrypt it, combine with the previous balance, append one record,
answer with the new cumulative ciphertext. -/
def applyTx (key : PaillierKey) (ledger : List Record) (wallet : String)
    (m rm r0 : ℕ) : List Record × HttpResp :=
  let ct_m := encrypt key m rm
  let prev_ct := last_balance key ledger wallet r0
  let new_ct := homomorphic_addition prev_ct ct_m key.n_squared
  (ledger ++ [⟨wallet, new_ct⟩], .ok wallet new_ct.c)

/-- num-bigint's sign handling in `from_str_radix`: strip one leading
`'+'` unless another `'+'` follows (a second `'+'` is left to fail the
character scan, as in the library). -/
def plusStripped (s : String) : List Char :=
  match s.data with
  | '+' :: '+' :: rest => '+' :: '+' :: rest
  | '+' :: rest => rest
  | l => l

/-- Model of `BigUint::parse_bytes(body.c.as_bytes(), 10)`, following
num-bigint's `from_str_radix`: after stripping one leading `'+'`, the
string must be nonempty, must not start with `'_'`, and every character
must be a decimal digit or a skipped `'_'` separator. -/
def parseDec (s : String) : Option ℕ :=
  match plusStripped s with
  | [] => none
  | c :: rest =>
    if c = '_' then none
    else if (c :: rest).all (fun ch => ch.isDigit || ch == '_') then
      some (((c :: rest).filter (fun ch => ch != '_')).foldl
        (fun a ch => a * 10 + (ch.toNat - 48)) 0)
    else none

/-- The `credit` handler from `main.rs`; `rm` is the blinding draw for the
amount, `r0` the draw `last_balance` may use. -/
def credit (key : PaillierKey) (ledger : List Record) (wallet cs : String)
    (rm r0 : ℕ) : List Record × HttpResp :=
  match parseDec cs with
  | none => (ledger, .badRequest)
  | some m => applyTx key ledger wallet m rm r0

/-- The `debit` handler from `main.rs`: computes `neg_m = n - m` by
unchecked `BigUint` subtraction (outer `none` is that underflow panic) and
then proceeds as `credit` does with `neg_m`. -/
def debit (key : PaillierKey) (ledger : List Record) (wallet cs : String)
    (rm r0 : ℕ) : Option (List Record × HttpResp) :=
  match parseDec cs with
  | none => some (ledger, .badRequest)
  | some m =>
    match checkedSub key.n m with
    | none => none
    | some neg_m => some (applyTx key ledger wallet neg_m rm r0)

/-- The `get_net` handler from `main.rs`: the last recorded cumulative
ciphertext value for `wallet`, `none` being the 404 response. -/
def get_net (ledger : List Record) (wallet : String) : Option ℕ :=
  match ledger.reverse.find? (fun entry => entry.wallet == wallet) with
  | some entry => some entry.ct.c
  | none => none

/-- The spec's concrete scenario: credit "A" with 100, credit "A" with 40,
debit "A" with 60 starting from the empty ledger, then decrypt the current
balance ciphertext of "A"; the outer `Option` is `debit`'s panic. -/
def scenarioBalance (key : PaillierKey) (r1 r0a r2 r0b r3 r0c : ℕ) :
    Option (Option ℕ) :=
  (debit key (credit key (credit key [] "A" "100" r1 r0a).1 "A" "40" r2 r0b).1
      "A" "60" r3 r0c).map
    (fun res => decrypt key (last_balance key res.1 "A" 0))

/-- Per-operation state of an in-flight `credit`: `pc = 0` before the
locked read inside `last_balance`, `pc = 1` between that read and the
locked `push`, `pc = 2` when done. -/
structure OpState where
  pc : ℕ
  prev : PaillierCiphertext
  m : ℕ
  rm : ℕ
  r0 : ℕ
deriving DecidableEq

/-- One atomic step of a `credit` operation at the granularity of the
source's two separate `LEDGER.lock()` critical sections: the read inside
`last_balance`, then the `push` of the combined ciphertext. -/
def creditStep (key : PaillierKey) (wallet : String) (ledger : List Record)
    (op : OpState) : List Record × OpState :=
  if op.pc = 0 then
    (ledger, ⟨1, last_balance key ledger wallet op.r0, op.m, op.rm, op.r0⟩)
  else if op.pc = 1 then
    (ledger ++
      [⟨wallet, homomorphic_addition op.prev (encrypt key op.m op.rm) key.n_squared⟩],
     ⟨2, op.prev, op.m, op.rm, op.r0⟩)
  else (ledger, op)

/-- Interleaved execution of two `credit` operations `a` and `b` under a
schedule: `true` lets `a` take its next atomic step, `false` lets `b`. -/
def runSched (key : PaillierKey) (wallet : String) :
    List Bool → List Record → OpState → OpState →
    List Record × OpState × OpState
  | [], ledger, a, b => (ledger, a, b)
  | true :: rest, ledger, a, b =>
    let st := creditStep key wallet ledger a
    runSched key wallet rest st.1 st.2 b
  | false :: rest, ledger, a, b =>
    let st := creditStep key wallet ledger b
    runSched key wallet rest st.1 a st.2

/-- A plain base-10 numeral at the request boundary: nonempty, all digits.
This is the notion of "valid non-negative integer numeral" the spec uses;
the library parser accepts strictly more (see `libNumeral`). -/
def validNumeral (s : String) : Prop :=
  s.data ≠ [] ∧ ∀ c ∈ s.data, c.isDigit = true

/-- The strings num-bigint's `from_str_radix` (hence `parse_bytes`)
accepts at radix 10: after stripping one leading `'+'`, nonempty, not
starting with `'_'`, every character a digit or a `'_'` separator. -/
def libNumeral (s : String) : Prop :=
  plusStripped s ≠ [] ∧ (plusStripped s).head? ≠ some '_' ∧
  ∀ c ∈ plusStripped s, c.isDigit = true ∨ c = '_'

/-- The hypotheses under which Paillier decryption is provably correct:
the two generating primes are **distinct** — a property key generation
does *not* guarantee (see `C6_cex`: both draws may coincide, and on
`p = q` keys decryption is genuinely wrong, see `C2_cex`) — together with
the field equations `PaillierKey.new` does establish for every key it
returns. -/
def ValidKey (key : PaillierKey) (p q : ℕ) : Prop :=
  p.Prime ∧ q.Prime ∧ p ≠ q ∧ key.n = p * q ∧
  key.n_squared = key.n * key.n ∧ key.g = key.n + 1 ∧
  key.lambda = (p - 1) * (q - 1) ∧ key.lambda * key.mu % key.n = 1 % key.n

/-- The key `PaillierKey.new 3 5` yields (`n = 15`), used as a small test key. -/
def keyA : PaillierKey := ⟨15, 225, 16, 8, 2⟩

/-- The key `PaillierKey.new 11 13` yields (`n = 143`), reachable by
`keygen 8` from the draw stream `0 ↦ 2, _ ↦ 4`. -/
def keyB : PaillierKey := ⟨143, 20449, 144, 120, 87⟩

/-- The key `PaillierKey.new 11 11` yields (`n = 121`, equal primes),
reachable by `keygen 8` from the constant draw stream `2`. -/
def keyC : PaillierKey := ⟨121, 14641, 122, 100, 23⟩

/-- The key `PaillierKey.new 3 3` yields (`n = 9`, equal primes),
reachable by `keygen 4` from *every* draw stream: the only 2-bit
candidate is `3`. -/
def keyD : PaillierKey := ⟨9, 81, 10, 4, 7⟩

/-- Binomial congruence `(n+1)^k ≡ 1 + k·n (mod n²)` underlying the choice
`g = n + 1`. -/
lemma one_add_mul_pow (n k : ℕ) : (n + 1) ^ k ≡ 1 + k * n [MOD n * n] := by
  induction k with
  | zero => simpa using Nat.ModEq.refl 1
  | succ k ih =>
    have hz : k * (n * n) ≡ 0 [MOD n * n] :=
      Nat.modEq_zero_iff_dvd.mpr (dvd_mul_left _ _)
    calc (n + 1) ^ (k + 1) = (n + 1) ^ k * (n + 1) := pow_succ _ _
      _ ≡ (1 + k * n) * (n + 1) [MOD n * n] := ih.mul_right _
      _ = (1 + (k + 1) * n) + k * (n * n) := by ring
      _ ≡ (1 + (k + 1) * n) + 0 [MOD n * n] := (Nat.ModEq.refl _).add hz
      _ = 1 + (k + 1) * n := by ring

/-- Carmichael-style fact: for `n = p·q` a product of distinct primes and
`r` coprime to `n`, `r^(n·(p-1)(q-1)) ≡ 1 (mod n²)`. -/
lemma pow_n_lambda (p q r : ℕ) (hp : p.Prime) (hq : q.Prime) (hpq : p ≠ q)
    (hr : Nat.Coprime r (p * q)) :
    r ^ (p * q * ((p - 1) * (q - 1))) ≡ 1 [MOD (p * q) * (p * q)] := by
  have hrp : Nat.Coprime r p := Nat.Coprime.coprime_dvd_right (dvd_mul_right p q) hr
  have hrq : Nat.Coprime r q := Nat.Coprime.coprime_dvd_right (dvd_mul_left q p) hr
  have ep : r ^ (p * (p - 1)) ≡ 1 [MOD p * p] := by
    have h := Nat.ModEq.pow_totient (hrp.pow_right 2)
    rwa [Nat.totient_prime_pow hp (by norm_num), pow_one, pow_two] at h
  have eq' : r ^ (q * (q - 1)) ≡ 1 [MOD q * q] := by
    have h := Nat.ModEq.pow_totient (hrq.pow_right 2)
    rwa [Nat.totient_prime_pow hq (by norm_num), pow_one, pow_two] at h
  have hep : r ^ (p * q * ((p - 1) * (q - 1))) ≡ 1 [MOD p * p] := by
    have hx : p * q * ((p - 1) * (q - 1)) = p * (p - 1) * (q * (q - 1)) := by ring
    calc r ^ (p * q * ((p - 1) * (q - 1)))
        = (r ^ (p * (p - 1))) ^ (q * (q - 1)) := by rw [hx, pow_mul]
      _ ≡ 1 ^ (q * (q - 1)) [MOD p * p] := ep.pow _
      _ = 1 := one_pow _
  have heq : r ^ (p * q * ((p - 1) * (q - 1))) ≡ 1 [MOD q * q] := by
    have hx : p * q * ((p - 1) * (q - 1)) = q * (q - 1) * (p * (p - 1)) := by ring
    calc r ^ (p * q * ((p - 1) * (q - 1)))
        = (r ^ (q * (q - 1))) ^ (p * (p - 1)) := by rw [hx, pow_mul]
      _ ≡ 1 ^ (p * (p - 1)) [MOD q * q] := eq'.pow _
      _ = 1 := one_pow _
  have hc : Nat.Coprime p q := (Nat.coprime_primes hp hq).mpr hpq
  have hc2 : Nat.Coprime (p * p) (q * q) := (hc.mul_right hc).mul (hc.mul_right hc)
  have h := (Nat.modEq_and_modEq_iff_modEq_mul hc2).mp ⟨hep, heq⟩
  have hx : p * p * (q * q) = (p * q) * (p * q) := by ring
  rwa [hx] at h

/-- Whatever `invSearchAux` returns is a modular inverse of `a`. -/
lemma invSearchAux_spec (a m : ℕ) :
    ∀ fuel b x, invSearchAux a m b fuel = some x → a * x % m = 1 % m := by
  intro fuel
  induction fuel with
  | zero => intro b x h; simp [invSearchAux] at h
  | succ f ih =>
    intro b x h
    rw [invSearchAux] at h
    by_cases hc : a * b % m = 1 % m
    · rw [if_pos hc] at h
      cases h
      exact hc
    · rw [if_neg hc] at h
      exact ih _ _ h

/-- Whatever `modinv` returns is a modular inverse of `a`. -/
lemma modinv_spec (a m x : ℕ) (h : modinv a m = some x) : a * x % m = 1 % m := by
  unfold modinv at h
  by_cases hg : Nat.gcd a m = 1
  · rw [if_pos hg] at h
    exact invSearchAux_spec a m m 0 x h
  · rw [if_neg hg] at h
    cases h

/-- Inversion of `PaillierKey.new`: the invariants every returned key has. -/
lemma new_inv (p q : ℕ) (k : PaillierKey) (h : PaillierKey.new p q = some k) :
    k.n = p * q ∧ k.n_squared = k.n * k.n ∧ k.g = k.n + 1 ∧
    k.lambda = (p - 1) * (q - 1) ∧ k.lambda * k.mu % k.n = 1 % k.n := by
  unfold PaillierKey.new at h
  cases hmv : modinv ((p - 1) * (q - 1)) (p * q) with
  | none => rw [hmv] at h; cases h
  | some mu =>
    rw [hmv] at h
    cases h
    exact ⟨rfl, rfl, rfl, rfl, modinv_spec _ _ _ hmv⟩

/-- `isPrimeB` only accepts primes. -/
lemma isPrimeB_prime {k : ℕ} (h : isPrimeB k = true) : k.Prime := by
  unfold isPrimeB at h
  rw [Bool.and_eq_true, decide_eq_true_eq, List.all_eq_true] at h
  obtain ⟨h2, hall⟩ := h
  rw [Nat.prime_def_lt']
  refine ⟨h2, fun m hm2 hmk hdvd => ?_⟩
  have hmem : m - 2 ∈ List.range (k - 2) := List.mem_range.mpr (by omega)
  have hb := hall _ hmem
  rw [bne_iff_ne] at hb
  have hm : m - 2 + 2 = m := by omega
  rw [hm] at hb
  exact hb (Nat.dvd_iff_mod_eq_zero.mp hdvd)

/-- A square of a prime is not a product of two distinct primes. -/
lemma prime_sq_not_distinct_product (r : ℕ) (hr : r.Prime) :
    ¬ ∃ p q : ℕ, p ≠ q ∧ p.Prime ∧ q.Prime ∧ r * r = p * q := by
  rintro ⟨p, q, hne, hp, hq, hpq⟩
  have hpd : p ∣ r * r := ⟨q, hpq⟩
  have hqd : q ∣ r * r := ⟨p, by rw [hpq]; ring⟩
  have hpr : p = r := by
    rcases (Nat.Prime.dvd_mul hp).mp hpd with h | h <;>
      exact (Nat.prime_dvd_prime_iff_eq hp hr).mp h
  have hqr : q = r := by
    rcases (Nat.Prime.dvd_mul hq).mp hqd with h | h <;>
      exact (Nat.prime_dvd_prime_iff_eq hq hr).mp h
  exact hne (hpr.trans hqr.symm)

/-- `encrypt` in canonical form `(n+1)^m · r^n mod n²`. -/
lemma encrypt_eq (key : PaillierKey) (p q : ℕ) (hk : ValidKey key p q) (m r : ℕ) :
    encrypt key m r =
      ⟨(key.n + 1) ^ m * r ^ key.n % key.n_squared, key.n_squared⟩ := by
  obtain ⟨-, -, -, -, -, hg, -, -⟩ := hk
  unfold encrypt modpow
  rw [hg, ← Nat.mul_mod]

/-- Multiplying two canonical ciphertext values mod `M` merges exponents
and blinding factors. -/
lemma collapse (N M a R b S : ℕ) :
    ((N + 1) ^ a * R ^ N % M) * ((N + 1) ^ b * S ^ N % M) % M =
      (N + 1) ^ (a + b) * (R * S) ^ N % M := by
  rw [← Nat.mul_mod]
  congr 1
  rw [pow_add, mul_pow]
  ring

/-- Paillier decryption correctness: a canonical ciphertext
`(n+1)^M · R^n mod n²` with `R` coprime to `n` decrypts to `M mod n`,
whatever the ciphertext's `n_squared` field holds. -/
lemma decrypt_raw (key : PaillierKey) (p q : ℕ) (hk : ValidKey key p q)
    (M R : ℕ) (hR : Nat.Coprime R key.n) (ns : ℕ) :
    decrypt key ⟨(key.n + 1) ^ M * R ^ key.n % key.n_squared, ns⟩ =
      some (M % key.n) := by
  obtain ⟨hp, hq, hpq, hn, hn2, -, hlam, hmu⟩ := hk
  have hn0 : 0 < key.n := by rw [hn]; exact Nat.mul_pos hp.pos hq.pos
  have hn4 : 4 ≤ key.n := by
    rw [hn]
    calc 4 = 2 * 2 := by norm_num
      _ ≤ p * q := Nat.mul_le_mul hp.two_le hq.two_le
  -- the raised ciphertext, computed exactly
  have hkey : modpow ((key.n + 1) ^ M * R ^ key.n % key.n_squared) key.lambda
      key.n_squared = 1 + M * key.lambda % key.n * key.n := by
    unfold modpow
    rw [hn2]
    have h1 : ((key.n + 1) ^ M * R ^ key.n % (key.n * key.n)) ^ key.lambda ≡
        (key.n + 1) ^ (M * key.lambda) * R ^ (key.n * key.lambda)
        [MOD key.n * key.n] := by
      have hc : ((key.n + 1) ^ M * R ^ key.n % (key.n * key.n)) ^ key.lambda ≡
          ((key.n + 1) ^ M * R ^ key.n) ^ key.lambda [MOD key.n * key.n] :=
        (Nat.mod_modEq _ _).pow _
      calc ((key.n + 1) ^ M * R ^ key.n % (key.n * key.n)) ^ key.lambda
          ≡ ((key.n + 1) ^ M * R ^ key.n) ^ key.lambda [MOD key.n * key.n] := hc
        _ = (key.n + 1) ^ (M * key.lambda) * R ^ (key.n * key.lambda) := by
            rw [mul_pow, ← pow_mul, ← pow_mul]
    have h2 : (key.n + 1) ^ (M * key.lambda) ≡ 1 + M * key.lambda * key.n
        [MOD key.n * key.n] := one_add_mul_pow key.n (M * key.lambda)
    have h3 : R ^ (key.n * key.lambda) ≡ 1 [MOD key.n * key.n] := by
      have h := pow_n_lambda p q R hp hq hpq (by rwa [hn] at hR)
      rw [← hn, ← hlam] at h
      exact h
    have h4 : 1 + M * key.lambda * key.n ≡
        1 + M * key.lambda % key.n * key.n [MOD key.n * key.n] :=
      ((Nat.mod_modEq (M * key.lambda) key.n).symm.mul_right' key.n).add_left 1
    have h5 : ((key.n + 1) ^ M * R ^ key.n % (key.n * key.n)) ^ key.lambda ≡
        1 + M * key.lambda % key.n * key.n [MOD key.n * key.n] := by
      calc ((key.n + 1) ^ M * R ^ key.n % (key.n * key.n)) ^ key.lambda
          ≡ (key.n + 1) ^ (M * key.lambda) * R ^ (key.n * key.lambda)
            [MOD key.n * key.n] := h1
        _ ≡ (1 + M * key.lambda * key.n) * 1 [MOD key.n * key.n] := h2.mul h3
        _ = 1 + M * key.lambda * key.n := by ring
        _ ≡ 1 + M * key.lambda % key.n * key.n [MOD key.n * key.n] := h4
    have hlt : 1 + M * key.lambda % key.n * key.n < key.n * key.n := by
      have ha : M * key.lambda % key.n < key.n := Nat.mod_lt _ hn0
      have hb : M * key.lambda % key.n * key.n ≤ (key.n - 1) * key.n :=
        Nat.mul_le_mul_right _ (by omega)
      have hc : (key.n - 1) * key.n + key.n = key.n * key.n := by
        have : (key.n - 1) + 1 = key.n := by omega
        calc (key.n - 1) * key.n + key.n = ((key.n - 1) + 1) * key.n := by ring
          _ = key.n * key.n := by rw [this]
      omega
    calc ((key.n + 1) ^ M * R ^ key.n % (key.n * key.n)) ^ key.lambda %
          (key.n * key.n)
        = (1 + M * key.lambda % key.n * key.n) % (key.n * key.n) := h5
      _ = 1 + M * key.lambda % key.n * key.n := Nat.mod_eq_of_lt hlt
  unfold decrypt
  rw [hkey]
  unfold checkedSub
  rw [if_pos (by omega : 1 ≤ 1 + M * key.lambda % key.n * key.n)]
  simp only [Option.map_some']
  congr 1
  have hsub : 1 + M * key.lambda % key.n * key.n - 1 =
      M * key.lambda % key.n * key.n := by omega
  rw [hsub, Nat.mul_div_cancel _ hn0]
  have : M * key.lambda % key.n * key.mu % key.n = M % key.n :=
    calc M * key.lambda % key.n * key.mu % key.n
        = M * key.lambda * key.mu % key.n :=
          (Nat.mod_modEq (M * key.lambda) key.n).mul_right key.mu
      _ = M % key.n := by
          have hmod : key.lambda * key.mu ≡ 1 [MOD key.n] := hmu
          have h := hmod.mul_left M
          have hx : M * (key.lambda * key.mu) = M * key.lambda * key.mu := by ring
          rw [hx] at h
          simpa using h
  exact this

/-- `credit` on a string that parses. -/
lemma credit_some (key : PaillierKey) (L : List Record) (w s : String)
    (m rm r0 : ℕ) (h : parseDec s = some m) :
    credit key L w s rm r0 = applyTx key L w m rm r0 := by
  unfold credit
  rw [h]

/-- `credit` on a string that does not parse. -/
lemma credit_none (key : PaillierKey) (L : List Record) (w s : String)
    (rm r0 : ℕ) (h : parseDec s = none) :
    credit key L w s rm r0 = (L, .badRequest) := by
  unfold credit
  rw [h]

/-- `debit` on a parsed amount within `[0, n]`: the complement is taken and
the `credit` tail runs. -/
lemma debit_some (key : PaillierKey) (L : List Record) (w s : String)
    (m rm r0 : ℕ) (h : parseDec s = some m) (hm : m ≤ key.n) :
    debit key L w s rm r0 = some (applyTx key L w (key.n - m) rm r0) := by
  simp [debit, h, checkedSub, hm]

/-- `debit` on a parsed amount above `n`: the subtraction underflow panic. -/
lemma debit_panic (key : PaillierKey) (L : List Record) (w s : String)
    (m rm r0 : ℕ) (h : parseDec s = some m) (hm : key.n < m) :
    debit key L w s rm r0 = none := by
  simp [debit, h, checkedSub, show ¬ m ≤ key.n by omega]

/-- `debit` on a string that does not parse. -/
lemma debit_none (key : PaillierKey) (L : List Record) (w s : String)
    (rm r0 : ℕ) (h : parseDec s = none) :
    debit key L w s rm r0 = some (L, .badRequest) := by
  unfold debit
  rw [h]

/-- Strings outside the library's accept-set do not parse. -/
lemma parseDec_invalid (s : String) (h : ¬ libNumeral s) : parseDec s = none := by
  unfold parseDec
  split
  · rfl
  next c rest hps =>
    by_cases hc : c = '_'
    · rw [if_pos hc]
    · rw [if_neg hc]
      by_cases hall : ((c :: rest).all fun ch => ch.isDigit || ch == '_') = true
      · exfalso
        apply h
        refine ⟨by rw [hps]; simp, by rw [hps]; simpa using hc, ?_⟩
        intro ch hch
        rw [hps] at hch
        have hx := List.all_eq_true.mp hall ch hch
        rw [Bool.or_eq_true] at hx
        rcases hx with hd | he
        · exact Or.inl hd
        · exact Or.inr (by simpa using he)
      · rw [if_neg hall]

/-- `last_balance` after appending a record for the same wallet. -/
lemma last_balance_append_self (key : PaillierKey) (L : List Record)
    (w : String) (ct : PaillierCiphertext) (r : ℕ) :
    last_balance key (L ++ [⟨w, ct⟩]) w r = ct := by
  unfold last_balance
  rw [List.reverse_append]
  simp [List.find?]

/-- `last_balance` when no record for the wallet exists: a fresh encryption
of zero from the draw `r`. -/
lemma last_balance_of_no_record (key : PaillierKey) (L : List Record)
    (w : String) (r : ℕ) (h : ∀ e ∈ L, e.wallet ≠ w) :
    last_balance key L w r = encrypt key 0 r := by
  unfold last_balance
  rw [List.find?_eq_none.mpr]
  intro e he
  rw [List.mem_reverse] at he
  simpa using h e he

/-- `get_net` when no record for the wallet exists: the 404 branch. -/
lemma get_net_of_no_record (L : List Record) (w : String)
    (h : ∀ e ∈ L, e.wallet ≠ w) : get_net L w = none := by
  unfold get_net
  rw [List.find?_eq_none.mpr]
  intro e he
  rw [List.mem_reverse] at he
  simpa using h e he

/-- Inversion of a successful `gen_prime`: the value passed the primality
test and is some iteration's candidate. -/
lemma gen_prime_spec (bits : ℕ) (s : ℕ → ℕ) :
    ∀ fuel i v j, gen_prime fuel bits s i = some (v, j) →
      isPrimeB v = true ∧ ∃ x, v = mkCandidate bits x := by
  intro fuel
  induction fuel with
  | zero => intro i v j h; simp [gen_prime] at h
  | succ f ih =>
    intro i v j h
    rw [gen_prime] at h
    by_cases hp : isPrimeB (mkCandidate bits (s i)) = true
    · simp only [hp, if_true] at h
      cases h
      exact ⟨hp, s i, rfl⟩
    · simp only [hp, if_false] at h
      exact ih _ _ _ h

/-- Every candidate is odd: the source forces the low bit. -/
lemma mkCandidate_odd (bits x : ℕ) : Odd (mkCandidate bits x) := by
  rw [Nat.odd_iff]
  have h : (mkCandidate bits x).testBit 0 = true := by
    unfold mkCandidate
    simp [Nat.testBit_or]
  rw [Nat.testBit_zero] at h
  exact of_decide_eq_true h

/-- Every candidate has the forced top bit: it is at least `2 ^ (bits-1)`. -/
lemma mkCandidate_ge (bits x : ℕ) : 2 ^ (bits - 1) ≤ mkCandidate bits x := by
  have h : (mkCandidate bits x).testBit (bits - 1) = true := by
    unfold mkCandidate
    simp [Nat.testBit_or, Nat.testBit_two_pow_self]
  exact Nat.testBit_implies_ge h

/-- Every candidate stays below `2 ^ bits` (for `bits ≥ 1`). -/
lemma mkCandidate_lt (bits x : ℕ) (hb : 1 ≤ bits) :
    mkCandidate bits x < 2 ^ bits := by
  unfold mkCandidate
  refine Nat.or_lt_two_pow (Nat.or_lt_two_pow ?_ ?_) ?_
  · exact Nat.mod_lt _ (Nat.two_pow_pos bits)
  · exact Nat.pow_lt_pow_right (by norm_num) (by omega)
  · exact Nat.one_lt_two_pow_iff.mpr (by omega)

/-- With `bits = 0` every candidate is `1`, which never passes the test, so
`gen_prime 0-bit` cannot succeed. -/
lemma gen_prime_zero_bits (s : ℕ → ℕ) :
    ∀ fuel i, gen_prime fuel 0 s i = none := by
  intro fuel
  induction fuel with
  | zero => intro i; rfl
  | succ f ih =>
    intro i
    rw [gen_prime]
    have hc : mkCandidate 0 (s i) = 1 := by
      unfold mkCandidate
      rw [pow_zero, Nat.mod_one]
      decide
    rw [hc]
    simp only [isPrimeB]
    norm_num
    exact ih (i + 1)

/-- C1, counterexample: `homomorphic_addition` succeeds on two ciphertexts
whose `n_squared` fields differ (9 vs 25), and `decrypt` succeeds on a
ciphertext whose `n_squared` field (30) differs from the key's (225);
neither operation fails with a modulus-mismatch error. -/
theorem C1_cex :
    (PaillierCiphertext.mk 2 9).n_squared ≠ (PaillierCiphertext.mk 2 25).n_squared ∧
    homomorphic_addition ⟨2, 9⟩ ⟨2, 25⟩ 9 = ⟨4, 9⟩ ∧
    (30 : ℕ) ≠ keyA.n_squared ∧
    decrypt keyA ⟨16, 30⟩ = some 1 := by
  decide

/-- C1, amended: no modulus check is performed.  `decrypt`'s result never
depends on the ciphertext's `n_squared` field, and `homomorphic_addition`
combines any two ciphertexts under the caller-supplied modulus,
unconditionally returning a ciphertext. -/
theorem C1_amended (key : PaillierKey) (c ns nsx : ℕ)
    (c1 c2 : PaillierCiphertext) (M : ℕ) :
    decrypt key ⟨c, ns⟩ = decrypt key ⟨c, nsx⟩ ∧
    homomorphic_addition c1 c2 M = ⟨c1.c * c2.c % M, M⟩ :=
  ⟨rfl, rfl⟩

/-- C2, counterexample, twice over.  First: `keyB` is produced by key
generation from a concrete draw stream, the plaintext `1` and the blinding
draw `0` are in the claimed ranges `[0, n)`, yet decrypting the encryption
of `1` under blinding factor `0` hits the `x - 1` underflow panic
(`none`).  Second: key generation at 4 bits reachably returns the equal
prime pair `p = q = 3` (`keyD`, `n = 9`), and there even the *coprime*
in-range draw `2` makes decrypt(encrypt 0) return the wrong value `6` —
so restricting the draws cannot repair the claim for every generated
key; distinct primes must be required too. -/
theorem C2_cex :
    keygen 8 1 (fun i => if i = 0 then 2 else 4) = some keyB ∧
    (1 : ℕ) < keyB.n ∧ (0 : ℕ) < keyB.n ∧
    decrypt keyB (encrypt keyB 1 0) = none ∧
    keygen 4 1 (fun _ => 0) = some keyD ∧
    Nat.gcd 2 keyD.n = 1 ∧ (2 : ℕ) < keyD.n ∧ (0 : ℕ) < keyD.n ∧
    decrypt keyD (encrypt keyD 0 2) = some 6 := by
  decide

/-- C2, amended: for every key pair built from two **distinct** primes —
key generation does not guarantee distinctness, and on its reachable
`p = q` keys the round-trip returns wrong values even for coprime draws
(`C2_cex`) — and every plaintext `m < n`, decrypting the encryption of
`m` returns `m` for every blinding draw `r` in `[0, n)` that is coprime
to `n` (the draw `r = 0`, which `encrypt` can make, panics). -/
theorem C2_roundtrip (key : PaillierKey) (p q m r : ℕ) (hk : ValidKey key p q)
    (hm : m < key.n) (hr0 : r < key.n) (hr : Nat.gcd r key.n = 1) :
    decrypt key (encrypt key m r) = some m := by
  rw [encrypt_eq key p q hk, decrypt_raw key p q hk m r hr, Nat.mod_eq_of_lt hm]

/-- C2, witness: round-trip at the concrete key `keyA`, `m = 7`, `r = 2`. -/
theorem C2_roundtrip_witness : decrypt keyA (encrypt keyA 7 2) = some 7 :=
  C2_roundtrip keyA 3 5 7 2 (by norm_num [ValidKey, keyA]) (by decide)
    (by decide) (by decide)

/-- C3, counterexample, twice over.  First: with the generated key `keyB`
and plaintexts `1, 2 < n`, blinding draws `0` and `1` (both in `[0, n)`),
decrypting the homomorphic combination panics (`none`) instead of
returning `3`.  Second: on the keygen-reachable equal-prime key `keyD`
(`n = 9`), combining two encryptions of `0` under the *coprime* draw `2`
decrypts to `3`, not `(0 + 0) mod 9 = 0` — distinct primes must be
required as well as coprime draws. -/
theorem C3_cex :
    keygen 8 1 (fun i => if i = 0 then 2 else 4) = some keyB ∧
    (1 : ℕ) < keyB.n ∧ (2 : ℕ) < keyB.n ∧
    decrypt keyB
      (homomorphic_addition (encrypt keyB 1 0) (encrypt keyB 2 1)
        keyB.n_squared) = none ∧
    keygen 4 1 (fun _ => 0) = some keyD ∧
    Nat.gcd 2 keyD.n = 1 ∧ (0 : ℕ) < keyD.n ∧
    decrypt keyD
      (homomorphic_addition (encrypt keyD 0 2) (encrypt keyD 0 2)
        keyD.n_squared) = some 3 := by
  decide

/-- C3, amended: for every key pair built from two **distinct** primes
(not guaranteed by key generation; on its `p = q` keys the property fails
even for coprime draws, `C3_cex`), all plaintexts `a, b < n`, and all
blinding draws in `[0, n)` coprime to `n`, decrypting the homomorphic
combination of the two encryptions yields `(a + b) mod n` (a non-coprime
draw, which `encrypt` can make, panics instead). -/
theorem C3_homomorphic (key : PaillierKey) (p q a b r1 r2 : ℕ)
    (hk : ValidKey key p q) (ha : a < key.n) (hb : b < key.n)
    (h1 : r1 < key.n) (h2 : r2 < key.n)
    (hc1 : Nat.gcd r1 key.n = 1) (hc2 : Nat.gcd r2 key.n = 1) :
    decrypt key
      (homomorphic_addition (encrypt key a r1) (encrypt key b r2)
        key.n_squared) = some ((a + b) % key.n) := by
  rw [encrypt_eq key p q hk a r1, encrypt_eq key p q hk b r2]
  unfold homomorphic_addition
  simp only
  rw [collapse]
  exact decrypt_raw key p q hk (a + b) (r1 * r2)
    (Nat.Coprime.mul hc1 hc2) key.n_squared

/-- C3, witness: homomorphism at the concrete key `keyA`, `a = 7`, `b = 11`,
blinding draws `2` and `4`. -/
theorem C3_homomorphic_witness :
    decrypt keyA
      (homomorphic_addition (encrypt keyA 7 2) (encrypt keyA 11 4)
        keyA.n_squared) = some ((7 + 11) % keyA.n) :=
  C3_homomorphic keyA 3 5 7 11 2 4 (by norm_num [ValidKey, keyA]) (by decide)
    (by decide) (by decide) (by decide) (by decide) (by decide)

/-- One `credit`/`debit` tail step in canonical form: if the previous
balance is `(n+1)^a · R^n mod n²`, appending an encryption of `m` under
blinding `rm` yields `(n+1)^(a+m) · (R·rm)^n mod n²`. -/
lemma applyTx_canon (key : PaillierKey) (p q : ℕ) (hk : ValidKey key p q)
    (L : List Record) (w : String) (a R m rm r0 : ℕ)
    (hprev : last_balance key L w r0 =
      ⟨(key.n + 1) ^ a * R ^ key.n % key.n_squared, key.n_squared⟩) :
    applyTx key L w m rm r0 =
      (L ++ [⟨w, ⟨(key.n + 1) ^ (a + m) * (R * rm) ^ key.n % key.n_squared,
          key.n_squared⟩⟩],
       .ok w ((key.n + 1) ^ (a + m) * (R * rm) ^ key.n % key.n_squared)) := by
  unfold applyTx homomorphic_addition
  rw [hprev, encrypt_eq key p q hk m rm]
  simp only
  rw [collapse]

/-- C4, counterexample, twice over.  First: under the generated key `keyB`
(`n = 143 > 100`), if the first credit's blinding draw is `0` (a value
`encrypt` can draw), the scenario's final balance ciphertext is `0` and
decrypting it panics (`some none`), instead of decrypting to 80.  Second:
under the keygen-reachable equal-prime key `keyC` (`n = 121 > 100`), with
all draws *coprime* to `n` (the first credit blinded by `2`), the scenario
decrypts to `25`, not `80` — so the scenario half of the claim also needs
the two generating primes distinct. -/
theorem C4_cex :
    keygen 8 1 (fun i => if i = 0 then 2 else 4) = some keyB ∧
    (100 : ℕ) < keyB.n ∧
    scenarioBalance keyB 0 1 1 1 1 1 = some none ∧
    keygen 8 1 (fun _ => 2) = some keyC ∧
    (100 : ℕ) < keyC.n ∧ Nat.gcd 2 keyC.n = 1 ∧
    scenarioBalance keyC 2 1 1 1 1 1 = some (some 25) := by
  decide

/-- C4: `debit` encrypts the modular complement `n - m` and otherwise runs
exactly the `credit` tail (`applyTx`), and the spec scenario — credit "A"
100, credit "A" 40, debit "A" 60 from the empty ledger — leaves a current
balance ciphertext for "A" decrypting to 80, for every key pair built from
two **distinct** primes (not guaranteed by key generation; on its equal
prime keys the scenario decrypts to a wrong value even with coprime draws,
`C4_cex`) with `n > 100` and blinding draws coprime to `n`. -/
theorem C4_debit_complement_scenario (key : PaillierKey)
    (p q r1 r0a r2 r0b r3 r0c : ℕ) (L : List Record) (w s : String)
    (m rm r0 : ℕ) (hk : ValidKey key p q) (hn : 100 < key.n)
    (h1 : Nat.gcd r1 key.n = 1) (h0a : Nat.gcd r0a key.n = 1)
    (h2 : Nat.gcd r2 key.n = 1) (h3 : Nat.gcd r3 key.n = 1)
    (hs : parseDec s = some m) (hm : m ≤ key.n) :
    debit key L w s rm r0 = some (applyTx key L w (key.n - m) rm r0) ∧
    scenarioBalance key r1 r0a r2 r0b r3 r0c = some (some 80) := by
  refine ⟨debit_some key L w s m rm r0 hs hm, ?_⟩
  have e100 : parseDec "100" = some 100 := by decide
  have e40 : parseDec "40" = some 40 := by decide
  have e60 : parseDec "60" = some 60 := by decide
  have hprev1 : last_balance key [] "A" r0a =
      ⟨(key.n + 1) ^ 0 * r0a ^ key.n % key.n_squared, key.n_squared⟩ := by
    rw [show last_balance key [] "A" r0a = encrypt key 0 r0a from rfl,
      encrypt_eq key p q hk 0 r0a]
  have hprev2 : last_balance key
      [⟨"A", ⟨(key.n + 1) ^ (0 + 100) * (r0a * r1) ^ key.n % key.n_squared,
        key.n_squared⟩⟩] "A" r0b =
      ⟨(key.n + 1) ^ (0 + 100) * (r0a * r1) ^ key.n % key.n_squared,
        key.n_squared⟩ :=
    last_balance_append_self key [] "A" _ r0b
  have hprev3 : last_balance key
      [⟨"A", ⟨(key.n + 1) ^ (0 + 100) * (r0a * r1) ^ key.n % key.n_squared,
        key.n_squared⟩⟩,
       ⟨"A", ⟨(key.n + 1) ^ (0 + 100 + 40) * (r0a * r1 * r2) ^ key.n %
        key.n_squared, key.n_squared⟩⟩] "A" r0c =
      ⟨(key.n + 1) ^ (0 + 100 + 40) * (r0a * r1 * r2) ^ key.n %
        key.n_squared, key.n_squared⟩ :=
    last_balance_append_self key
      [⟨"A", ⟨(key.n + 1) ^ (0 + 100) * (r0a * r1) ^ key.n % key.n_squared,
        key.n_squared⟩⟩] "A" _ r0c
  have hL1 : (credit key [] "A" "100" r1 r0a).1 =
      [⟨"A", ⟨(key.n + 1) ^ (0 + 100) * (r0a * r1) ^ key.n % key.n_squared,
        key.n_squared⟩⟩] := by
    rw [credit_some key [] "A" "100" 100 r1 r0a e100,
      applyTx_canon key p q hk [] "A" 0 r0a 100 r1 r0a hprev1]
    rfl
  have hL2 : (credit key
      [⟨"A", ⟨(key.n + 1) ^ (0 + 100) * (r0a * r1) ^ key.n % key.n_squared,
        key.n_squared⟩⟩] "A" "40" r2 r0b).1 =
      [⟨"A", ⟨(key.n + 1) ^ (0 + 100) * (r0a * r1) ^ key.n % key.n_squared,
        key.n_squared⟩⟩,
       ⟨"A", ⟨(key.n + 1) ^ (0 + 100 + 40) * (r0a * r1 * r2) ^ key.n %
        key.n_squared, key.n_squared⟩⟩] := by
    rw [credit_some key _ "A" "40" 40 r2 r0b e40,
      applyTx_canon key p q hk _ "A" (0 + 100) (r0a * r1) 40 r2 r0b hprev2]
    rfl
  have hdeb : debit key
      [⟨"A", ⟨(key.n + 1) ^ (0 + 100) * (r0a * r1) ^ key.n % key.n_squared,
        key.n_squared⟩⟩,
       ⟨"A", ⟨(key.n + 1) ^ (0 + 100 + 40) * (r0a * r1 * r2) ^ key.n %
        key.n_squared, key.n_squared⟩⟩] "A" "60" r3 r0c =
      some ([⟨"A", ⟨(key.n + 1) ^ (0 + 100) * (r0a * r1) ^ key.n %
          key.n_squared, key.n_squared⟩⟩,
        ⟨"A", ⟨(key.n + 1) ^ (0 + 100 + 40) * (r0a * r1 * r2) ^ key.n %
          key.n_squared, key.n_squared⟩⟩,
        ⟨"A", ⟨(key.n + 1) ^ (0 + 100 + 40 + (key.n - 60)) *
          (r0a * r1 * r2 * r3) ^ key.n % key.n_squared, key.n_squared⟩⟩],
       .ok "A" ((key.n + 1) ^ (0 + 100 + 40 + (key.n - 60)) *
          (r0a * r1 * r2 * r3) ^ key.n % key.n_squared)) := by
    rw [debit_some key _ "A" "60" 60 r3 r0c e60 (by omega),
      applyTx_canon key p q hk _ "A" (0 + 100 + 40) (r0a * r1 * r2)
        (key.n - 60) r3 r0c hprev3]
    rfl
  have hlast : last_balance key
      [⟨"A", ⟨(key.n + 1) ^ (0 + 100) * (r0a * r1) ^ key.n % key.n_squared,
        key.n_squared⟩⟩,
       ⟨"A", ⟨(key.n + 1) ^ (0 + 100 + 40) * (r0a * r1 * r2) ^ key.n %
        key.n_squared, key.n_squared⟩⟩,
       ⟨"A", ⟨(key.n + 1) ^ (0 + 100 + 40 + (key.n - 60)) *
        (r0a * r1 * r2 * r3) ^ key.n % key.n_squared, key.n_squared⟩⟩]
      "A" 0 =
      ⟨(key.n + 1) ^ (0 + 100 + 40 + (key.n - 60)) *
        (r0a * r1 * r2 * r3) ^ key.n % key.n_squared, key.n_squared⟩ :=
    last_balance_append_self key
      [⟨"A", ⟨(key.n + 1) ^ (0 + 100) * (r0a * r1) ^ key.n % key.n_squared,
        key.n_squared⟩⟩,
       ⟨"A", ⟨(key.n + 1) ^ (0 + 100 + 40) * (r0a * r1 * r2) ^ key.n %
        key.n_squared, key.n_squared⟩⟩] "A" _ 0
  have hcop : Nat.Coprime (r0a * r1 * r2 * r3) key.n :=
    Nat.Coprime.mul (Nat.Coprime.mul (Nat.Coprime.mul h0a h1) h2) h3
  unfold scenarioBalance
  rw [hL1, hL2, hdeb, Option.map_some']
  dsimp only
  rw [hlast,
    decrypt_raw key p q hk (0 + 100 + 40 + (key.n - 60))
      (r0a * r1 * r2 * r3) hcop key.n_squared]
  have hE : 0 + 100 + 40 + (key.n - 60) = key.n + 80 := by omega
  rw [hE, Nat.add_mod_left, Nat.mod_eq_of_lt (by omega : (80 : ℕ) < key.n)]

/-- C4, witness: the scenario at the concrete generated key `keyB`
(`n = 143`) with all blinding draws `1`, and the debit-complement equation
at the boundary input `"60"`. -/
theorem C4_witness :
    debit keyB [] "A" "60" 1 1 = some (applyTx keyB [] "A" (keyB.n - 60) 1 1) ∧
    scenarioBalance keyB 1 1 1 1 1 1 = some (some 80) :=
  C4_debit_complement_scenario keyB 11 13 1 1 1 1 1 1 [] "A" "60" 60 1 1
    (by norm_num [ValidKey, keyB]) (by decide) (by decide) (by decide)
    (by decide) (by decide) (by decide) (by decide)

/-- C5, counterexample: `3` and `7` are primes whose
`lambda = (3-1)(7-1) = 12` is not invertible mod `n = 21`, and key
generation fails immediately on this first unusable pair (the `.expect`
panic, modelled `none`) instead of retrying with fresh primes. -/
theorem C5_cex :
    Nat.Prime 3 ∧ Nat.Prime 7 ∧
    Nat.gcd ((3 - 1) * (7 - 1)) (3 * 7) ≠ 1 ∧
    PaillierKey.new 3 7 = none := by
  refine ⟨by norm_num, by norm_num, by decide, by decide⟩

/-- C5, amended: on a prime pair whose `lambda` has no inverse mod `n`,
key generation panics at once (no retry, no bounded attempt count), and
every key pair it does return has `mu` a genuine inverse of `lambda`
modulo `n`. -/
theorem C5_no_retry_mu_defined (p q px qx : ℕ) (k : PaillierKey)
    (h : PaillierKey.new p q = some k)
    (hx : Nat.gcd ((px - 1) * (qx - 1)) (px * qx) ≠ 1) :
    k.lambda * k.mu % k.n = 1 % k.n ∧ PaillierKey.new px qx = none := by
  constructor
  · exact (new_inv p q k h).2.2.2.2
  · unfold PaillierKey.new modinv
    rw [if_neg hx]

/-- C5, witness: the returned key for the pair `(3, 5)` has `mu = 2`
inverting `lambda = 8` mod `15`, and the pair `(3, 7)` makes generation
fail at once. -/
theorem C5_witness :
    keyA.lambda * keyA.mu % keyA.n = 1 % keyA.n ∧
    PaillierKey.new 3 7 = none :=
  C5_no_retry_mu_defined 3 5 3 7 keyA (by decide) (by decide)

/-- C6, counterexample: the draw stream that always answers `11` makes both
`gen_prime(8)` calls return the same prime `139`, so `keygen 16` returns a
key whose modulus `19321 = 139²` is not a product of two distinct primes. -/
theorem C6_cex :
    keygen 16 1 (fun _ => 11) =
      some (PaillierKey.mk 19321 373301041 19322 19044 279) ∧
    ¬ ∃ p q : ℕ, p ≠ q ∧ p.Prime ∧ q.Prime ∧
      (PaillierKey.mk 19321 373301041 19322 19044 279).n = p * q := by
  constructor
  · decide
  · have h := prime_sq_not_distinct_product 139 (by norm_num)
    simp only [show (139 : ℕ) * 139 = 19321 from by norm_num] at h
    exact h

/-- C6, amended: every key produced from two successful `gen_prime` draws
has `n = p·q` for two primes (not necessarily distinct) that are odd, have
the forced top bit, and are exactly `bits/2` bits long. -/
theorem C6_key_shape (bits fuel : ℕ) (s : ℕ → ℕ) (p q i j : ℕ)
    (k : PaillierKey)
    (hp : gen_prime fuel (bits / 2) s 0 = some (p, i))
    (hq : gen_prime fuel (bits / 2) s i = some (q, j))
    (hk : PaillierKey.new p q = some k) :
    k.n = p * q ∧ p.Prime ∧ q.Prime ∧
    Odd p ∧ 2 ^ (bits / 2 - 1) ≤ p ∧ p < 2 ^ (bits / 2) ∧
    Odd q ∧ 2 ^ (bits / 2 - 1) ≤ q ∧ q < 2 ^ (bits / 2) := by
  have hb : 1 ≤ bits / 2 := by
    by_contra hb
    have h0 : bits / 2 = 0 := by omega
    rw [h0] at hp
    rw [gen_prime_zero_bits s fuel 0] at hp
    cases hp
  obtain ⟨hpp, xp, hxp⟩ := gen_prime_spec (bits / 2) s fuel 0 p i hp
  obtain ⟨hqq, xq, hxq⟩ := gen_prime_spec (bits / 2) s fuel i q j hq
  refine ⟨(new_inv p q k hk).1, isPrimeB_prime hpp, isPrimeB_prime hqq,
    ?_, ?_, ?_, ?_, ?_, ?_⟩
  · rw [hxp]; exact mkCandidate_odd _ _
  · rw [hxp]; exact mkCandidate_ge _ _
  · rw [hxp]; exact mkCandidate_lt _ _ hb
  · rw [hxq]; exact mkCandidate_odd _ _
  · rw [hxq]; exact mkCandidate_ge _ _
  · rw [hxq]; exact mkCandidate_lt _ _ hb

/-- C6, witness: the key shape facts at the concrete run that produces
`n = 139 · 139` from the constant draw stream `11`. -/
theorem C6_key_shape_witness :
    (PaillierKey.mk 19321 373301041 19322 19044 279).n = 139 * 139 ∧
    Nat.Prime 139 ∧ Nat.Prime 139 ∧
    Odd 139 ∧ 2 ^ (16 / 2 - 1) ≤ 139 ∧ 139 < 2 ^ (16 / 2) ∧
    Odd 139 ∧ 2 ^ (16 / 2 - 1) ≤ 139 ∧ 139 < 2 ^ (16 / 2) :=
  C6_key_shape 16 1 (fun _ => 11) 139 139 1 2
    (PaillierKey.mk 19321 373301041 19322 19044 279)
    (by decide) (by decide) (by decide)

/-- C7, counterexample, twice over.  First: for an account with no record,
`last_balance` may draw the blinding factor `0` (a value in `[0, n)`), and
the resulting encryption of zero decrypts to the underflow panic (`none`),
not to `0`.  Second: on the keygen-reachable equal-prime key `keyD`
(`n = 9`), even the *coprime* draw `2` makes the fresh zero-encryption
decrypt to `6`, not `0` — "decrypts to 0" also needs the generating
primes distinct. -/
theorem C7_cex :
    keygen 8 1 (fun i => if i = 0 then 2 else 4) = some keyB ∧
    (0 : ℕ) < keyB.n ∧
    last_balance keyB [] "B" 0 = encrypt keyB 0 0 ∧
    decrypt keyB (last_balance keyB [] "B" 0) = none ∧
    keygen 4 1 (fun _ => 0) = some keyD ∧
    Nat.gcd 2 keyD.n = 1 ∧ (2 : ℕ) < keyD.n ∧
    decrypt keyD (last_balance keyD [] "B" 2) = some 6 := by
  decide

/-- C7, amended: for an account with no ledger record, `last_balance`
returns a fresh encryption of zero built from the current draw `r` — so
repeated calls with different draws can return different ciphertexts, as
the two draws `2` and `7` at `keyA` show — while `get_net` for that
account reports not-found; the fresh encryption decrypts to `0` whenever
the key's generating primes are distinct (not guaranteed by key
generation, `C7_cex`) and the draw is coprime to `n`. -/
theorem C7_unknown_account (key : PaillierKey) (p q : ℕ) (L : List Record)
    (w : String) (r : ℕ) (hk : ValidKey key p q)
    (hr : Nat.gcd r key.n = 1) (hno : ∀ e ∈ L, e.wallet ≠ w) :
    last_balance key L w r = encrypt key 0 r ∧
    decrypt key (last_balance key L w r) = some 0 ∧
    get_net L w = none ∧
    last_balance keyA [] "B" 2 ≠ last_balance keyA [] "B" 7 := by
  have hlb := last_balance_of_no_record key L w r hno
  refine ⟨hlb, ?_, get_net_of_no_record L w hno, by decide⟩
  rw [hlb, encrypt_eq key p q hk 0 r, decrypt_raw key p q hk 0 r hr,
    Nat.zero_mod]

/-- C7, witness: the unknown-account behaviour at `keyA`, wallet `"B"`,
empty ledger, draw `2`. -/
theorem C7_unknown_account_witness :
    last_balance keyA [] "B" 2 = encrypt keyA 0 2 ∧
    decrypt keyA (last_balance keyA [] "B" 2) = some 0 ∧
    get_net [] "B" = none ∧
    last_balance keyA [] "B" 2 ≠ last_balance keyA [] "B" 7 :=
  C7_unknown_account keyA 3 5 [] "B" 2 (by norm_num [ValidKey, keyA])
    (by decide) (by simp)

/-- C8, counterexample: `"1_0"` is not a valid base-10 numeral, yet
`parse_bytes` (skipping the `'_'` separator, as num-bigint does) accepts
it as `10`, so `credit` appends a record — the ledger is mutated, not
left unchanged; likewise `"+5"` is accepted as `5`. -/
theorem C8_cex :
    ¬ validNumeral "1_0" ∧ parseDec "1_0" = some 10 ∧
    (credit keyA [] "A" "1_0" 1 1).1 ≠ [] ∧
    ¬ validNumeral "+5" ∧ parseDec "+5" = some 5 := by
  refine ⟨by unfold validNumeral; decide, by decide, by decide,
    by unfold validNumeral; decide, by decide⟩

/-- C8, amended: the handlers reject exactly the strings the library
parser rejects — those that, after stripping one leading `'+'`, are
empty, start with `'_'`, or contain a character other than a digit or
`'_'` — answering bad-request with the ledger exactly as it was, nothing
appended or modified; but strings with a `'+'` prefix or embedded `'_'`
separators, though not plain base-10 numerals, are accepted and do
mutate the ledger (see the counterexample). -/
theorem C8_reject_no_mutation (key : PaillierKey) (L : List Record)
    (w s : String) (rm r0 : ℕ) (h : ¬ libNumeral s) :
    credit key L w s rm r0 = (L, .badRequest) ∧
    debit key L w s rm r0 = some (L, .badRequest) :=
  ⟨credit_none key L w s rm r0 (parseDec_invalid s h),
   debit_none key L w s rm r0 (parseDec_invalid s h)⟩

/-- C8, witness: the malformed string `"12x"` at `keyA` leaves the ledger
`[]` untouched on both handlers. -/
theorem C8_reject_no_mutation_witness :
    credit keyA [] "A" "12x" 1 1 = ([], .badRequest) ∧
    debit keyA [] "A" "12x" 1 1 = some ([], .badRequest) :=
  C8_reject_no_mutation keyA [] "A" "12x" 1 1
    (by unfold libNumeral; decide)

/-- C9: a parsed debit amount `m` strictly above `n` drives the unchecked
subtraction `n - m` into its underflow panic (`none`) — no bad-request
response, no wrap — while any `m ≤ n` (including the out-of-range boundary
value `m = n` itself) passes straight through to the append with no range
check. -/
theorem C9_debit_underflow_panic (key : PaillierKey) (L : List Record)
    (w s sx : String) (m mx rm r0 : ℕ)
    (hs : parseDec s = some m) (hgt : key.n < m)
    (hsx : parseDec sx = some mx) (hmx : mx ≤ key.n) :
    debit key L w s rm r0 = none ∧
    debit key L w sx rm r0 = some (applyTx key L w (key.n - mx) rm r0) :=
  ⟨debit_panic key L w s m rm r0 hs hgt,
   debit_some key L w sx mx rm r0 hsx hmx⟩

/-- C9, witness: at `keyA` (`n = 15`) the string `"16"` parses to `16 > 15`
and panics, while the boundary string `"15"` (`= n`, outside `[0, n)`)
still proceeds to the append. -/
theorem C9_debit_underflow_panic_witness :
    debit keyA [] "A" "16" 1 1 = none ∧
    debit keyA [] "A" "15" 1 1 = some (applyTx keyA [] "A" (keyA.n - 15) 1 1) :=
  C9_debit_underflow_panic keyA [] "A" "16" "15" 16 15 1 1 (by decide)
    (by decide) (by decide) (by decide)

/-- C10: the lock is released between the read inside `last_balance` and
the append, so the interleaving read-A, read-B, append-A, append-B of two
credits on wallet "A" (amounts 3 and 4 over a recorded balance of 5) makes
both operations read the same previous ciphertext, and the final balance
decrypts to 9 = 5 + 4 — the first credit's amount 3 is lost, which the
claimed whole-sequence lock would make impossible. -/
theorem C10_race :
    (runSched keyA "A" [true, false, true, false]
        [⟨"A", encrypt keyA 5 1⟩]
        ⟨0, ⟨0, 0⟩, 3, 2, 1⟩ ⟨0, ⟨0, 0⟩, 4, 7, 1⟩).2.1.prev =
      (runSched keyA "A" [true, false, true, false]
        [⟨"A", encrypt keyA 5 1⟩]
        ⟨0, ⟨0, 0⟩, 3, 2, 1⟩ ⟨0, ⟨0, 0⟩, 4, 7, 1⟩).2.2.prev ∧
    decrypt keyA
      (last_balance keyA
        (runSched keyA "A" [true, false, true, false]
          [⟨"A", encrypt keyA 5 1⟩]
          ⟨0, ⟨0, 0⟩, 3, 2, 1⟩ ⟨0, ⟨0, 0⟩, 4, 7, 1⟩).1 "A" 0) = some 9 ∧
    (9 : ℕ) ≠ (5 + 3 + 4) % keyA.n := by
  decide

